import Mathlib

/-!
Verification of the skill-manager core (remote tree discovery, manifest
metadata extraction, installer) against its natural-language specification.

JavaScript strings are modelled as `List Char` (`JStr`).  Each definition
is a direct translation of the corresponding TypeScript function; the
source file and symbol are named in the doc comment.
-/

set_option autoImplicit false

/-- JavaScript strings are modelled as lists of characters. -/
abbrev JStr := List Char

/-- Convenience conversion from Lean string literals to the model type. -/
def lit (s : String) : JStr := s.toList

/-- The character set matched by the JavaScript regex class `\s`
(whitespace, as used by `String.prototype.trim` as well). -/
def jsWsChars : JStr :=
  ['\t', '\n', '\x0b', '\x0c', '\r', ' ', ' ', ' ',
   ' ', ' ', ' ', ' ', ' ', ' ', ' ',
   ' ', ' ', ' ', ' ', ' ', ' ', ' ',
   ' ', '　', '﻿']

/-- Whether a character is JavaScript whitespace. -/
def isJsWs (c : Char) : Bool := jsWsChars.contains c

/-- JavaScript `String.prototype.trim`. -/
def jsTrim (s : JStr) : JStr :=
  ((s.dropWhile isJsWs).reverse.dropWhile isJsWs).reverse

/-- JavaScript `String.prototype.toLowerCase` (ASCII part, which is all the
source ever feeds it). -/
def jsToLower (s : JStr) : JStr := s.map Char.toLower

/-- JavaScript `a.startsWith(b)`. -/
def jsStartsWith (s pat : JStr) : Bool := pat.isPrefixOf s

/-- JavaScript `a.includes(b)`: substring occurrence. -/
def jsIncludes (s pat : JStr) : Bool := decide (pat <:+: s)

/-- Association-list lookup (models JavaScript object / `Map` read). -/
def lookupA {β : Type} (m : List (JStr × β)) (k : JStr) : Option β :=
  match m with
  | [] => none
  | (k', v') :: rest => if k' = k then some v' else lookupA rest k

/-- Association-list update (models JavaScript object / `Map` write:
overwrites the existing binding, otherwise appends). -/
def setA {β : Type} (m : List (JStr × β)) (k : JStr) (v : β) : List (JStr × β) :=
  match m with
  | [] => [(k, v)]
  | (k', v') :: rest => if k' = k then (k, v) :: rest else (k', v') :: setA rest k v

namespace SkillParser

/-- A parsed YAML value in the simple front-matter dialect: either a scalar
string or a list of strings.  (The TypeScript code stores both shapes in a
`Record<string, unknown>`.) -/
inductive YamlVal where
  | s (v : JStr)
  | arr (items : List JStr)
deriving DecidableEq

/-- JavaScript truthiness of a yaml value: the empty string is falsy,
every other string and every array (even the empty one) is truthy. -/
def truthyV : YamlVal → Bool
  | .s v => !v.isEmpty
  | .arr _ => true

/-- JavaScript truthiness of `record[key]` where the key may be absent. -/
def truthyO : Option YamlVal → Bool
  | none => false
  | some v => truthyV v

/-- Quote characters stripped by `value.replace(/^["']|["']$/g, '')`. -/
def isQuote (c : Char) : Bool := (lit "\"'").contains c

/-- The effect of `value.replace(/^["']|["']$/g, '')`: remove one leading
quote, then one trailing quote of what remains (the two regex alternatives
match at the original string ends and cannot overlap). -/
def stripQuotes (v : JStr) : JStr :=
  let v1 := match v with
    | c :: rest => if isQuote c then rest else v
    | [] => []
  match v1.getLast? with
  | some c => if isQuote c then v1.dropLast else v1
  | none => v1

/-- Mutable state of the line loop in `SkillParser.parseSimpleYaml`
(`src/services/skillParser.ts`): accumulated record, current key, and the
in-progress list value if the current key opened one. -/
structure YamlState where
  result : List (JStr × YamlVal)
  currentKey : JStr
  currentArray : Option (List JStr)

/-- One iteration of the `for (const line of lines)` loop of
`parseSimpleYaml`. -/
def yamlStep (st : YamlState) (line : JStr) : YamlState :=
  let trimmed := jsTrim line
  if trimmed.isEmpty || jsStartsWith trimmed ['#'] then st
  else if jsStartsWith trimmed ['-', ' '] then
    match st.currentArray with
    | some items => { st with currentArray := some (items ++ [jsTrim (trimmed.drop 2)]) }
    | none => st
  else
    match trimmed.findIdx? (fun c => c == ':') with
    | some i =>
      if 0 < i then
        let st1 :=
          match st.currentArray with
          | some items =>
            if st.currentKey.isEmpty then st
            else { st with result := setA st.result st.currentKey (.arr items),
                           currentArray := none }
          | none => st
        let key := jsTrim (trimmed.take i)
        let value := jsTrim (trimmed.drop (i + 1))
        if value.isEmpty then
          { st1 with currentKey := key, currentArray := some [] }
        else
          { st1 with currentKey := key,
                     result := setA st1.result key (.s (stripQuotes value)) }
      else st
    | none => st

/-- `SkillParser.parseSimpleYaml` (`src/services/skillParser.ts`): a line
oriented `key: value` parser with `- item` list continuation lines. -/
def parseSimpleYaml (yaml : JStr) : List (JStr × YamlVal) :=
  let lines := yaml.splitOn '\n'
  let fin := lines.foldl yamlStep ⟨[], [], none⟩
  match fin.currentArray with
  | some items =>
    if fin.currentKey.isEmpty then fin.result
    else setA fin.result fin.currentKey (.arr items)
  | none => fin.result

/-- The greedy regex fragment `\s*\n` applied to a prefix of `l`: consume
the longest all-whitespace prefix ending in a newline, returning the
remainder.  Fails when no such prefix exists. -/
def wsNlSplit (l : JStr) : Option JStr :=
  let w := l.takeWhile isJsWs
  match w.reverse.findIdx? (fun c => c == '\n') with
  | none => none
  | some j => some (l.drop (w.length - j))

/-- Backtracking alternatives for `\s*\n`, longest match first: for every
newline inside the maximal whitespace prefix, the remainder after it. -/
def wsNlCandidates (l : JStr) : List JStr :=
  let w := l.takeWhile isJsWs
  (List.range w.length).reverse.filterMap
    (fun k => if w.get? k = some '\n' then some (l.drop (k + 1)) else none)

/-- Lazy search for the closing delimiter `\n---\s*\n` of the front-matter
regex: the first newline followed by `---` and a whitespace run containing
a newline wins; returns the captured front matter and the body. -/
def findCloseFM : JStr → Option (JStr × JStr)
  | [] => none
  | c :: rest =>
    if c = '\n' && jsStartsWith rest (lit "---") then
      match wsNlSplit (rest.drop 3) with
      | some body => some ([], body)
      | none =>
        match findCloseFM rest with
        | some (fm, body) => some (c :: fm, body)
        | none => none
    else
      match findCloseFM rest with
      | some (fm, body) => some (c :: fm, body)
      | none => none

/-- `SkillParser.extractFrontmatter` (`src/services/skillParser.ts`):
`content.match(/^---\s*\n([\s\S]*?)\n---\s*\n([\s\S]*)$/)`, returning the
front-matter capture and the body capture.  The greedy `\s*` after the
opening `---` backtracks from the longest candidate; the lazy middle
capture makes the earliest closing delimiter win. -/
def extractFrontmatter (content : JStr) : Option (JStr × JStr) :=
  if jsStartsWith content (lit "---") then
    (wsNlCandidates (content.drop 3)).findSome? findCloseFM
  else none

/-- Inner loop of `SkillParser.extractDescription`: walk the body lines,
skipping headings, skipping blank lines and code-fence lines until
something was collected (then stopping on them), collecting at most three
trimmed lines. -/
def descLoop (acc : List JStr) : List JStr → List JStr
  | [] => acc
  | line :: rest =>
    let trimmed := jsTrim line
    if jsStartsWith trimmed ['#'] then descLoop acc rest
    else if trimmed.isEmpty || jsStartsWith trimmed (lit "```") then
      if acc.length > 0 then acc else descLoop acc rest
    else
      let acc' := acc ++ [trimmed]
      if acc'.length ≥ 3 then acc' else descLoop acc' rest

/-- JavaScript `Array.prototype.join(' ')`. -/
def joinSp : List JStr → JStr
  | [] => []
  | [x] => x
  | x :: rest => x ++ ' ' :: joinSp rest

/-- JavaScript `Array.prototype.join(',')` (the `String()` coercion of an
array, used when a non-string reaches a regex test). -/
def joinComma : List JStr → JStr
  | [] => []
  | [x] => x
  | x :: rest => x ++ ',' :: joinComma rest

/-- `SkillParser.extractDescription` (`src/services/skillParser.ts`):
first up-to-three collected body lines joined by single spaces and cut to
300 characters by `.slice(0, 300)`. -/
def extractDescription (body : JStr) : JStr :=
  (joinSp (descLoop [] ((jsTrim body).splitOn '\n'))).take 300

/-- `SkillMetadata` (`src/models/skill.ts`).  The TypeScript interface
declares `name` and `description` as `string`, but the unchecked casts in
`parseSkillMd` can place parsed list values there as well, so the fields
are modelled as `YamlVal`. -/
structure SkillMetadata where
  name : YamlVal
  description : YamlVal
  category : Option YamlVal := none
  tags : Option YamlVal := none
  author : Option YamlVal := none
  version : Option YamlVal := none
  triggers : Option YamlVal := none
  dependencies : Option YamlVal := none
deriving DecidableEq

/-- `SkillParser.parseSkillMd` (`src/services/skillParser.ts`). -/
def parseSkillMd (content : JStr) : SkillMetadata :=
  match extractFrontmatter content with
  | none =>
    { name := .s (lit "Unknown Skill"),
      description := .s (extractDescription content) }
  | some (fm, body) =>
    let yaml := parseSimpleYaml fm
    let description : YamlVal :=
      match lookupA yaml (lit "description") with
      | some v => if truthyV v then v else .s (extractDescription body)
      | none => .s (extractDescription body)
    let name : YamlVal :=
      match lookupA yaml (lit "name") with
      | some v => if truthyV v then v else .s (lit "Unknown Skill")
      | none => .s (lit "Unknown Skill")
    { name := name,
      description := description,
      category := lookupA yaml (lit "category"),
      tags := lookupA yaml (lit "tags"),
      author := lookupA yaml (lit "author"),
      version := lookupA yaml (lit "version"),
      triggers := lookupA yaml (lit "triggers"),
      dependencies := lookupA yaml (lit "dependencies") }

/-- `ValidationResult` (`src/models/skill.ts`). -/
structure ValidationResult where
  isValid : Bool
  errors : List JStr
  warnings : List JStr
deriving DecidableEq

/-- JavaScript `String()` coercion of a yaml value (arrays join with
commas), applied when `validateSkill` feeds the name to a regex test. -/
def coerceStr : YamlVal → JStr
  | .s v => v
  | .arr items => joinComma items

/-- A character matched by the JavaScript regex class `\w`:
ASCII letters, digits and underscore. -/
def jsWordChar (c : Char) : Bool :=
  ('a' ≤ c && c ≤ 'z') || ('A' ≤ c && c ≤ 'Z') || ('0' ≤ c && c ≤ '9') || c = '_'

/-- The test `/^[\w\s-]+$/.test(name)`: non-empty and every character is a
word character, JavaScript whitespace, or a hyphen. -/
def nameFormatOk (v : JStr) : Bool :=
  !v.isEmpty && v.all (fun c => jsWordChar c || isJsWs c || c = '-')

/-- `SkillParser.validateSkill` (`src/services/skillParser.ts`). -/
def validateSkill (m : SkillMetadata) : ValidationResult :=
  let errors :=
    if !truthyV m.name || m.name = .s (lit "Unknown Skill") then
      [lit "Skill name is required in SKILL.md frontmatter"]
    else []
  let warnings :=
    (if !truthyV m.description then [lit "Skill description is recommended"] else []) ++
    (if truthyV m.name && !nameFormatOk (coerceStr m.name) then
      [lit "Skill name should only contain letters, numbers, spaces, and hyphens"]
    else [])
  { isValid := errors.isEmpty, errors := errors, warnings := warnings }

/-- The ordered category table of `SkillParser.inferCategory`
(`src/services/skillParser.ts`), in object-literal insertion order. -/
def categoryPatterns : List (JStr × List JStr) :=
  [ (lit "security",
      [lit "security", lit "audit", lit "vulnerability", lit "owasp", lit "penetration"]),
    (lit "engineering",
      [lit "code", lit "develop", lit "engineer", lit "debug", lit "refactor"]),
    (lit "testing",
      [lit "test", lit "spec", lit "jest", lit "mocha", lit "coverage"]),
    (lit "documentation",
      [lit "doc", lit "readme", lit "comment", lit "jsdoc"]),
    (lit "devops",
      [lit "deploy", lit "docker", lit "kubernetes", lit "ci", lit "cd", lit "pipeline"]),
    (lit "database",
      [lit "sql", lit "database", lit "mongo", lit "postgres", lit "redis"]),
    (lit "creative",
      [lit "design", lit "ui", lit "ux", lit "creative", lit "style"]),
    (lit "utility",
      [lit "util", lit "helper", lit "tool", lit "format", lit "validate"]) ]

/-- First category of the table one of whose keywords occurs in `text`
(`Object.entries` iteration with `patterns.some(p => text.includes(p))`). -/
def firstMatch : List (JStr × List JStr) → JStr → Option JStr
  | [], _ => none
  | (cat, pats) :: rest, text =>
    if pats.any (fun p => jsIncludes text p) then some cat else firstMatch rest text

/-- `SkillParser.inferCategory` (`src/services/skillParser.ts`): the name
and path are joined with a space, lower-cased, and matched against the
ordered category table. -/
def inferCategory (skillName pathStr : JStr) : Option JStr :=
  firstMatch categoryPatterns (jsToLower (skillName ++ ' ' :: pathStr))

end SkillParser

namespace GitHubService

/-- A node of the GitHub git-tree listing (`src/models/repository.ts`,
reconstructed from its uses): the `type` field is the API string
(`"blob"` for files, `"tree"` for directories). -/
structure TreeNode where
  path : JStr
  type : JStr
  sha : JStr := []
deriving DecidableEq

/-- `RepositoryTree` (`src/models/repository.ts`): the full recursive
listing plus the truncation flag reported by the API. -/
structure RepositoryTree where
  tree : List TreeNode
  truncated : Bool := false
deriving DecidableEq

/-- `SkillFile` (`src/models/skill.ts`): one direct child of a skill
directory; `type` is `"file"` or `"directory"`. -/
structure SkillFile where
  name : JStr
  path : JStr
  type : JStr
  sha : JStr := []
deriving DecidableEq

/-- `GitHubService.getSkillFiles` (`src/services/githubService.ts`): the
direct children of a skill directory, computed by filtering the tree on
the `skillPath + "/"` prefix (every node for the root skill) and dropping
any node whose remaining relative path still contains a separator. -/
def getSkillFiles (tree : RepositoryTree) (skillPath : JStr) : List SkillFile :=
  let pfx : JStr := if skillPath.isEmpty then [] else skillPath ++ ['/']
  tree.tree.filterMap (fun node =>
    if jsStartsWith node.path pfx || (skillPath.isEmpty && !node.path.contains '/') then
      let relativePath := if skillPath.isEmpty then node.path else node.path.drop pfx.length
      if relativePath.contains '/' then none
      else
        some { name := relativePath,
               path := node.path,
               type := if node.type = lit "tree" then lit "directory" else lit "file",
               sha := node.sha }
    else none)

/-- `RateLimitInfo` (`src/models/repository.ts`): the parsed
`x-ratelimit-*` headers; the reset time is kept as epoch seconds. -/
structure RateLimitInfo where
  limit : Nat
  remaining : Nat
  reset : Nat
deriving DecidableEq

/-- `CacheEntry<T>` (`src/services/githubService.ts`): payload, absolute
expiry (milliseconds), optional etag validator. -/
structure CacheEntry (α : Type) where
  data : α
  expiresAt : Nat
  etag : Option JStr := none
deriving DecidableEq

/-- The mutable fields of `GitHubService`: the keyed response cache and
the process-wide rate-limit snapshot. -/
structure GHState (α : Type) where
  cache : List (JStr × CacheEntry α)
  rateLimitInfo : Option RateLimitInfo := none
deriving DecidableEq

/-- One HTTP response as observed by `fetchWithCache`: status line, parsed
body, etag header, and the three rate-limit headers (absent headers are
`none`). -/
structure GHResponse (α : Type) where
  status : Nat
  statusText : JStr := []
  body : α
  etag : Option JStr := none
  rlLimit : Option Nat := none
  rlRemaining : Option Nat := none
  rlReset : Option Nat := none
deriving DecidableEq

/-- The `fetch` API `response.ok` predicate: status in [200, 300). -/
def respOk {α : Type} (r : GHResponse α) : Bool :=
  200 ≤ r.status && r.status < 300

/-- The two failure shapes thrown by `fetchWithCache`: the distinguished
rate-limit error carrying the reset time, and the generic HTTP error. -/
inductive GHError where
  | rateLimitExceeded (reset : Nat)
  | httpError (status : Nat) (text : JStr)
deriving DecidableEq

/-- `GitHubService.updateRateLimit`: record the snapshot only when all
three headers are present. -/
def updateRateLimit {α : Type} (st : GHState α) (r : GHResponse α) : GHState α :=
  match r.rlLimit, r.rlRemaining, r.rlReset with
  | some l, some rem, some rst => { st with rateLimitInfo := some ⟨l, rem, rst⟩ }
  | _, _, _ => st

/-- The test `this.rateLimitInfo?.remaining === 0`. -/
def rateLimitZero {α : Type} (st : GHState α) : Bool :=
  match st.rateLimitInfo with
  | some rl => rl.remaining == 0
  | none => false

/-- Reset time of the recorded snapshot (only read under
`rateLimitZero`, where the snapshot is present). -/
def resetOf {α : Type} (st : GHState α) : Nat :=
  match st.rateLimitInfo with
  | some rl => rl.reset
  | none => 0

/-- The tail of `fetchWithCache` after the 304 check: throw the
distinguished rate-limit error on 403 with zero remaining quota, throw
the generic error on any other non-ok status, otherwise cache and return
the fresh body. -/
def handleNon304 {α : Type} (cacheExpiry now : Nat) (key : JStr) (resp : GHResponse α)
    (st1 : GHState α) : Except GHError α × GHState α :=
  if !respOk resp then
    if resp.status == 403 && rateLimitZero st1 then
      (.error (.rateLimitExceeded (resetOf st1)), st1)
    else
      (.error (.httpError resp.status resp.statusText), st1)
  else
    (.ok resp.body,
     { st1 with cache := setA st1.cache key ⟨resp.body, now + cacheExpiry, resp.etag⟩ })

/-- The network part of `fetchWithCache`, entered after a cache miss or
expiry: update the rate-limit snapshot, honour 304 by extending the
cached entry, else defer to `handleNon304`. -/
def handleResponse {α : Type} (cacheExpiry now : Nat) (key : JStr) (resp : GHResponse α)
    (st1 : GHState α) : Option (CacheEntry α) → Except GHError α × GHState α
  | some c =>
    if resp.status == 304 then
      (.ok c.data,
       { st1 with cache := setA st1.cache key { c with expiresAt := now + cacheExpiry } })
    else handleNon304 cacheExpiry now key resp st1
  | none => handleNon304 cacheExpiry now key resp st1

/-- `GitHubService.fetchWithCache` (`src/services/githubService.ts`),
with the single network round trip made explicit: `resp` is the response
the remote would give if asked, and the third component counts the
requests actually issued.  An unexpired cache entry is returned without
touching the network. -/
def fetchWithCache {α : Type} (cacheExpiry now : Nat) (key : JStr) (resp : GHResponse α)
    (st : GHState α) : Except GHError α × GHState α × Nat :=
  match lookupA st.cache key with
  | some c =>
    if now < c.expiresAt then (.ok c.data, st, 0)
    else
      let st1 := updateRateLimit st resp
      let r := handleResponse cacheExpiry now key resp st1 (some c)
      (r.1, r.2, 1)
  | none =>
    let st1 := updateRateLimit st resp
    let r := handleResponse cacheExpiry now key resp st1 none
    (r.1, r.2, 1)

end GitHubService

namespace SkillInstaller

open GitHubService

/-- A snapshot of the local filesystem: the set of existing directories
and the files with their contents.  Paths are absolute strings. -/
structure FS where
  dirs : List JStr
  files : List (JStr × JStr)
deriving DecidableEq

/-- `fs.stat(p).isDirectory()` as used by `isInstalled`. -/
def dirExists (fs : FS) (p : JStr) : Bool := fs.dirs.contains p

/-- `fs.access(p)`: the path exists, as a directory or as a file. -/
def pathExists (fs : FS) (p : JStr) : Bool :=
  fs.dirs.contains p || (lookupA fs.files p).isSome

/-- `fs.mkdir(p, { recursive: true })` on the existence-set model: ensure
the directory exists (a no-op when it already does; intermediate
ancestors are not tracked separately). -/
def mkdirR (fs : FS) (p : JStr) : FS :=
  if fs.dirs.contains p then fs else { fs with dirs := p :: fs.dirs }

/-- `fs.writeFile(p, content)`. -/
def writeF (fs : FS) (p content : JStr) : FS :=
  { fs with files := setA fs.files p content }

/-- Whether `q` is the path `p` itself or lies strictly below it. -/
def underDir (p q : JStr) : Bool := q == p || (p ++ ['/']).isPrefixOf q

/-- `fs.rm(p, { recursive: true, force: true })`: delete the path and its
whole subtree. -/
def rmR (fs : FS) (p : JStr) : FS :=
  { dirs := fs.dirs.filter (fun d => !underDir p d),
    files := fs.files.filter (fun kv => !underDir p kv.1) }

/-- Node `path.join` restricted to the shapes the installer produces
(no `..` or empty segments occur in them). -/
def joinP (a b : JStr) : JStr := a ++ '/' :: b

/-- `Skill` (`src/models/skill.ts`), restricted to the fields the
installer reads. -/
structure Skill where
  id : JStr
  name : JStr
  repository : JStr
  path : JStr
  files : List SkillFile
  version : Option JStr := none
deriving DecidableEq

/-- Helper of `getSkillLocalPath`: `skill.name.toLowerCase()
.replace(/\s+/g, '-')`, collapsing each maximal whitespace run to one
hyphen.  The boolean remembers whether the previous character belonged
to a run. -/
def collapseWsAux : JStr → Bool → JStr
  | [], _ => []
  | c :: rest, prevWs =>
    if isJsWs c then
      if prevWs then collapseWsAux rest true else '-' :: collapseWsAux rest true
    else c :: collapseWsAux rest false

/-- Sanitized on-disk name of a skill (`SkillInstaller.getSkillLocalPath`,
`src/services/skillInstaller.ts`). -/
def sanitizeName (name : JStr) : JStr := collapseWsAux (jsToLower name) false

/-- `InstallResult` (`src/models/skill.ts`); the echoed `skill` field is
omitted as it is always the input skill. -/
structure InstallResult where
  success : Bool
  localPath : Option JStr := none
  error : Option JStr := none
deriving DecidableEq

/-- The direct-file download loop of `SkillInstaller.install`
(`src/services/skillInstaller.ts`, step 3): for each direct child of kind
`file`, ask the download oracle `dl` (which models
`githubService.downloadFile`; `none` is a download failure, which is
logged and skipped), write successful downloads under the entry name.
Returns the new filesystem and the number of download requests. -/
def downloadDirect (dl : JStr → Option JStr) (localPath : JStr) :
    List SkillFile → FS → FS × Nat
  | [], fs => (fs, 0)
  | f :: rest, fs =>
    if f.type = lit "file" then
      match dl f.path with
      | some content =>
        let r := downloadDirect dl localPath rest (writeF fs (joinP localPath f.name) content)
        (r.1, r.2 + 1)
      | none =>
        let r := downloadDirect dl localPath rest fs
        (r.1, r.2 + 1)
    else downloadDirect dl localPath rest fs

/-- Body of the node loop of `SkillInstaller.downloadDirectory`: `recurse`
is the recursive call for nested `tree` nodes.  A failed blob download
throws `Failed to download file: <path>` (uncaught inside the loop); the
error is propagated together with the filesystem as left at that point
and the number of download requests made. -/
def ddGo (recurse : JStr → JStr → FS → Option JStr × FS × Nat)
    (dl : JStr → Option JStr) (pfx localPath : JStr) :
    List TreeNode → FS → Option JStr × FS × Nat
  | [], fs => (none, fs, 0)
  | node :: rest, fs =>
    if jsStartsWith node.path pfx then
      let relativePath := node.path.drop pfx.length
      if relativePath.contains '/' then ddGo recurse dl pfx localPath rest fs
      else
        let itemLocal := joinP localPath relativePath
        if node.type = lit "blob" then
          match dl node.path with
          | some content =>
            let r := ddGo recurse dl pfx localPath rest (writeF fs itemLocal content)
            (r.1, r.2.1, r.2.2 + 1)
          | none => (some (lit "Failed to download file: " ++ node.path), fs, 1)
        else if node.type = lit "tree" then
          match recurse node.path itemLocal fs with
          | (none, fs', k) =>
            let r := ddGo recurse dl pfx localPath rest fs'
            (r.1, r.2.1, r.2.2 + k)
          | (some e, fs', k) => (some e, fs', k)
        else ddGo recurse dl pfx localPath rest fs
    else ddGo recurse dl pfx localPath rest fs

/-- `SkillInstaller.downloadDirectory` (`src/services/skillInstaller.ts`):
create the local directory, re-fetch the repository tree (modelled by the
`tree` argument, counted as one request), and mirror every direct child,
recursing into nested directories.  The fuel bounds the recursion depth;
`install` passes more fuel than any finite tree can consume, so the
artificial fuel-exhaustion error is unreachable there. -/
def downloadDirectory (tree : RepositoryTree) (dl : JStr → Option JStr) :
    Nat → JStr → JStr → FS → Option JStr × FS × Nat
  | 0, _, _, fs => (some (lit "fuel exhausted"), fs, 0)
  | fuel + 1, remotePath, localPath, fs =>
    let fs0 := mkdirR fs localPath
    let r := ddGo (downloadDirectory tree dl fuel) dl (remotePath ++ ['/']) localPath
      tree.tree fs0
    (r.1, r.2.1, r.2.2 + 1)

/-- The subdirectory loop of `SkillInstaller.install` (step 4): mirror
each direct child of kind `directory`; an error thrown inside
`downloadDirectory` aborts the loop. -/
def downloadSubdirs (tree : RepositoryTree) (dl : JStr → Option JStr) (fuel : Nat)
    (localPath : JStr) : List SkillFile → FS → Option JStr × FS × Nat
  | [], fs => (none, fs, 0)
  | d :: rest, fs =>
    match downloadDirectory tree dl fuel d.path (joinP localPath d.name) fs with
    | (none, fs', k) =>
      let r := downloadSubdirs tree dl fuel localPath rest fs'
      (r.1, r.2.1, r.2.2 + k)
    | (some e, fs', k) => (some e, fs', k)

/-- Fuel that dominates the recursion depth of `downloadDirectory`: the
depth is bounded by the longest node path, since every recursive call
extends the remote path by at least one character. -/
def treeFuel (tree : RepositoryTree) : Nat :=
  (tree.tree.map (fun n => n.path.length)).foldl max 0 + 2

/-- Serialized sidecar content written by `saveInstallMetadata`
(`JSON.stringify` of id, name, repository, path, timestamp, version);
the exact JSON text is irrelevant to the verified properties, only that
a file with this content is written. -/
def metadataJson (skill : Skill) (nowIso : JStr) : JStr :=
  skill.id ++ '|' :: skill.name ++ '|' :: skill.repository ++ '|' :: skill.path ++
    '|' :: nowIso

/-- `SkillInstaller.install` (`src/services/skillInstaller.ts`).  Inputs:
the configured install root, the skill, the cached repository tree served
to `downloadDirectory`, the download oracle, the timestamp string, and
the filesystem.  Output: the install result, the new filesystem, and the
number of network requests issued.  The phases follow the source: ensure
the root, early-return when the sanitized-name directory exists, create
the directory, download direct files (failures skipped), mirror
subdirectories (failures thrown), verify `SKILL.md`, roll back when it is
missing, otherwise persist the sidecar. -/
def install (installPath : JStr) (skill : Skill) (tree : RepositoryTree)
    (dl : JStr → Option JStr) (nowIso : JStr) (fs : FS) : InstallResult × FS × Nat :=
  let fs0 := mkdirR fs installPath
  let localPath := joinP installPath (sanitizeName skill.name)
  if dirExists fs0 localPath then
    ({ success := false, localPath := some localPath,
       error := some (lit "Skill is already installed") }, fs0, 0)
  else
    let fs1 := mkdirR fs0 localPath
    let d := downloadDirect dl localPath skill.files fs1
    let s := downloadSubdirs tree dl (treeFuel tree) localPath
      (skill.files.filter (fun f => f.type = lit "directory")) d.1
    match s.1 with
    | some e => ({ success := false, error := some e }, s.2.1, d.2 + s.2.2)
    | none =>
      if pathExists s.2.1 (joinP localPath (lit "SKILL.md")) then
        let fs4 := writeF s.2.1 (joinP localPath (lit ".skill-manager.json"))
          (metadataJson skill nowIso)
        ({ success := true, localPath := some localPath }, fs4, d.2 + s.2.2)
      else
        ({ success := false,
           error := some (lit "SKILL.md not found in skill directory") },
         rmR s.2.1 localPath, d.2 + s.2.2)

/-- `SkillInstaller.uninstall` (`src/services/skillInstaller.ts`): throws
`Skill <name> is not installed` when the sanitized-name directory does
not exist (first component), otherwise removes the directory recursively.
The filesystem is returned unchanged in the throwing case. -/
def uninstall (installPath : JStr) (skill : Skill) (fs : FS) : Option JStr × FS :=
  let localPath := joinP installPath (sanitizeName skill.name)
  if !dirExists fs localPath then
    (some (lit "Skill " ++ skill.name ++ lit " is not installed"), fs)
  else
    (none, rmR fs localPath)

end SkillInstaller

namespace SkillParser

/-- A body line that the description fallback can collect: non-blank after
trimming, and starting with neither `#` (a heading) nor a triple-backtick
code fence.  Used to characterize what `extractDescription` returns. -/
def descCandidateLine (line : JStr) : Bool :=
  !(jsTrim line).isEmpty && !jsStartsWith (jsTrim line) ['#'] &&
    !jsStartsWith (jsTrim line) (lit "```")

end SkillParser

open SkillParser GitHubService SkillInstaller

/-! Helper lemmas shared by the claim theorems. -/

theorem lookupA_setA_self {β : Type} (m : List (JStr × β)) (k : JStr) (v : β) :
    lookupA (setA m k v) k = some v := by
  induction m with
  | nil => simp [setA, lookupA]
  | cons kv rest ih =>
    obtain ⟨k', v'⟩ := kv
    by_cases h : k' = k
    · simp [setA, h, lookupA]
    · simp [setA, h, lookupA, ih]

theorem lookupA_none_of_not_mem {β : Type} (m : List (JStr × β)) (k : JStr)
    (h : ∀ kv ∈ m, kv.1 ≠ k) : lookupA m k = none := by
  induction m with
  | nil => rfl
  | cons kv rest ih =>
    obtain ⟨k', v'⟩ := kv
    have hk : k' ≠ k := h (k', v') (by simp)
    simp only [lookupA, if_neg hk]
    exact ih (fun kv hkv => h kv (by simp [hkv]))

theorem dirs_writeF (fs : FS) (p c : JStr) : (writeF fs p c).dirs = fs.dirs := rfl

theorem contains_mkdirR {fs : FS} {d : JStr} (p : JStr) (h : fs.dirs.contains d = true) :
    (mkdirR fs p).dirs.contains d = true := by
  unfold mkdirR
  split
  · exact h
  · simp only [List.contains_cons, Bool.or_eq_true]
    exact Or.inr h

theorem contains_mkdirR_self (fs : FS) (p : JStr) : (mkdirR fs p).dirs.contains p = true := by
  unfold mkdirR
  split
  next h => exact h
  next h => simp

theorem pathExists_rmR (fs : FS) (p q : JStr) (hq : underDir p q = true) :
    pathExists (rmR fs p) q = false := by
  simp only [pathExists, rmR, Bool.or_eq_false_iff]
  constructor
  · have hnm : ¬ q ∈ fs.dirs.filter (fun d => !underDir p d) := by
      intro hmem
      rw [List.mem_filter] at hmem
      rw [hq] at hmem
      simp at hmem
    simpa using hnm
  · have hnone : lookupA (fs.files.filter (fun kv => !underDir p kv.1)) q = none := by
      apply lookupA_none_of_not_mem
      intro kv hkv hkq
      rw [List.mem_filter] at hkv
      rw [hkq] at hkv
      rw [hq] at hkv
      simp at hkv
    simp [hnone]

theorem downloadDirect_dirs (dl : JStr → Option JStr) (lp : JStr) (files : List SkillFile)
    (fs : FS) : (downloadDirect dl lp files fs).1.dirs = fs.dirs := by
  induction files generalizing fs with
  | nil => rfl
  | cons f rest ih =>
    simp only [downloadDirect]
    split
    · cases hdl : dl f.path with
      | some c => simp only [ih, dirs_writeF]
      | none => simp only [ih]
    · exact ih fs

theorem ddGo_dirs_mono (recurse : JStr → JStr → FS → Option JStr × FS × Nat)
    (dl : JStr → Option JStr) (pfx lp : JStr) (nodes : List TreeNode) (fs : FS) (d : JStr)
    (hrec : ∀ rp lp' fs', fs'.dirs.contains d = true →
      ((recurse rp lp' fs').2.1).dirs.contains d = true)
    (h : fs.dirs.contains d = true) :
    ((ddGo recurse dl pfx lp nodes fs).2.1).dirs.contains d = true := by
  induction nodes generalizing fs with
  | nil => simpa [ddGo] using h
  | cons node rest ih =>
    simp only [ddGo]
    by_cases h1 : jsStartsWith node.path pfx
    · simp only [h1, if_true]
      by_cases h2 : (node.path.drop pfx.length).contains '/'
      · simp only [h2, if_true]
        exact ih fs h
      · simp only [h2, if_false]
        by_cases h3 : node.type = lit "blob"
        · simp only [h3, if_true]
          cases hdl : dl node.path with
          | some c => exact ih _ h
          | none => exact h
        · simp only [h3, if_false]
          by_cases h4 : node.type = lit "tree"
          · simp only [h4, if_true]
            cases hr : recurse node.path (joinP lp (node.path.drop pfx.length)) fs with
            | mk e rest' =>
              obtain ⟨fs', k⟩ := rest'
              have hfs' : fs'.dirs.contains d = true := by
                have := hrec node.path (joinP lp (node.path.drop pfx.length)) fs h
                rw [hr] at this
                exact this
              cases e with
              | none => exact ih fs' hfs'
              | some e' => exact hfs'
          · simp only [h4, if_false]
            exact ih fs h
    · simp only [h1, if_false]
      exact ih fs h

theorem downloadDirectory_dirs_mono (tree : RepositoryTree) (dl : JStr → Option JStr)
    (fuel : Nat) (rp lp : JStr) (fs : FS) (d : JStr) (h : fs.dirs.contains d = true) :
    ((downloadDirectory tree dl fuel rp lp fs).2.1).dirs.contains d = true := by
  induction fuel generalizing rp lp fs with
  | zero => simpa [downloadDirectory] using h
  | succ n ih =>
    simp only [downloadDirectory]
    exact ddGo_dirs_mono _ dl _ lp tree.tree (mkdirR fs lp) d
      (fun rp' lp' fs' h' => ih rp' lp' fs' h') (contains_mkdirR lp h)

theorem downloadSubdirs_dirs_mono (tree : RepositoryTree) (dl : JStr → Option JStr)
    (fuel : Nat) (lp : JStr) (ds : List SkillFile) (fs : FS) (d : JStr)
    (h : fs.dirs.contains d = true) :
    ((downloadSubdirs tree dl fuel lp ds fs).2.1).dirs.contains d = true := by
  induction ds generalizing fs with
  | nil => simpa [downloadSubdirs] using h
  | cons f rest ih =>
    simp only [downloadSubdirs]
    cases hr : downloadDirectory tree dl fuel f.path (joinP lp f.name) fs with
    | mk e rest' =>
      obtain ⟨fs', k⟩ := rest'
      have hfs' : fs'.dirs.contains d = true := by
        have := downloadDirectory_dirs_mono tree dl fuel f.path (joinP lp f.name) fs d h
        rw [hr] at this
        exact this
      cases e with
      | none => exact ih fs' hfs'
      | some e' => exact hfs'

/-- Claim C1: for a bundle whose sanitized-name local directory already
exists, `install` terminates with the designated already-installed result
(nothing is thrown), the filesystem is returned exactly unchanged, and
zero network requests are issued.  The first hypothesis (the install root
itself exists) is filesystem well-formedness: a directory's child cannot
exist without the directory. -/
theorem install_already_installed
    (installPath : JStr) (skill : Skill) (tree : RepositoryTree)
    (dl : JStr → Option JStr) (nowIso : JStr) (fs : FS)
    (hroot : fs.dirs.contains installPath = true)
    (hdir : fs.dirs.contains (joinP installPath (sanitizeName skill.name)) = true) :
    install installPath skill tree dl nowIso fs =
      ({ success := false,
         localPath := some (joinP installPath (sanitizeName skill.name)),
         error := some (lit "Skill is already installed") }, fs, 0) := by
  have hroot' : installPath ∈ fs.dirs := by simpa using hroot
  have hdir' : joinP installPath (sanitizeName skill.name) ∈ fs.dirs := by simpa using hdir
  simp [install, mkdirR, dirExists, hroot', hdir']

/-- Witness for claim C1 at a concrete filesystem holding the install root
and the sanitized directory `my-skill` of the skill named `My Skill`. -/
theorem install_already_installed_witness :
    (FS.mk [lit "/root/skills", lit "/root/skills/my-skill"] []).dirs.contains
        (lit "/root/skills") = true ∧
    (FS.mk [lit "/root/skills", lit "/root/skills/my-skill"] []).dirs.contains
        (joinP (lit "/root/skills") (sanitizeName (lit "My Skill"))) = true ∧
    install (lit "/root/skills") ⟨lit "id", lit "My Skill", lit "repo", lit "p", [], none⟩
        ⟨[], false⟩ (fun _ => none) (lit "now")
        (FS.mk [lit "/root/skills", lit "/root/skills/my-skill"] []) =
      ({ success := false,
         localPath := some (joinP (lit "/root/skills") (sanitizeName (lit "My Skill"))),
         error := some (lit "Skill is already installed") },
       FS.mk [lit "/root/skills", lit "/root/skills/my-skill"] [], 0) :=
  ⟨by decide, by decide,
   install_already_installed _ _ _ _ _ _ (by decide) (by decide)⟩

/-- Claim C9: `uninstall` fails with the `not installed` message exactly
when the sanitized-name directory does not exist, leaving the filesystem
unchanged in that case; when it exists, the directory and everything below
it are removed. -/
theorem uninstall_spec (installPath : JStr) (skill : Skill) (fs : FS) :
    (dirExists fs (joinP installPath (sanitizeName skill.name)) = false →
      uninstall installPath skill fs =
        (some (lit "Skill " ++ skill.name ++ lit " is not installed"), fs)) ∧
    (dirExists fs (joinP installPath (sanitizeName skill.name)) = true →
      uninstall installPath skill fs =
        (none, rmR fs (joinP installPath (sanitizeName skill.name))) ∧
      ∀ q, underDir (joinP installPath (sanitizeName skill.name)) q = true →
        pathExists (uninstall installPath skill fs).2 q = false) := by
  refine ⟨fun h => by simp [uninstall, h], fun h => ⟨by simp [uninstall, h], ?_⟩⟩
  intro q hq
  have he : uninstall installPath skill fs =
      (none, rmR fs (joinP installPath (sanitizeName skill.name))) := by
    simp [uninstall, h]
  rw [he]
  exact pathExists_rmR _ _ _ hq

/-- Claim C2: with the already-installed early return not taken and the
subdirectory phase not throwing, `install` rolls back (deletes the local
directory and everything below it) exactly when `SKILL.md` is missing
after the download phase, reporting the manifest failure; when the
manifest is present the install succeeds and the directory survives, for
every download oracle (so failed non-manifest downloads never trigger
rollback); and a thrown subdirectory error also never triggers rollback. -/
theorem install_rollback_iff_manifest_missing
    (installPath : JStr) (skill : Skill) (tree : RepositoryTree)
    (dl : JStr → Option JStr) (nowIso : JStr) (fs : FS)
    (dfs : FS) (dn : Nat) (serr : Option JStr) (sfs : FS) (sn : Nat)
    (hnot : dirExists (mkdirR fs installPath)
      (joinP installPath (sanitizeName skill.name)) = false)
    (hd : downloadDirect dl (joinP installPath (sanitizeName skill.name)) skill.files
      (mkdirR (mkdirR fs installPath) (joinP installPath (sanitizeName skill.name)))
      = (dfs, dn))
    (hs : downloadSubdirs tree dl (treeFuel tree)
      (joinP installPath (sanitizeName skill.name))
      (skill.files.filter (fun f => f.type = lit "directory")) dfs = (serr, sfs, sn)) :
    (serr = none →
      pathExists sfs (joinP (joinP installPath (sanitizeName skill.name))
        (lit "SKILL.md")) = false →
      install installPath skill tree dl nowIso fs =
        ({ success := false, localPath := none,
           error := some (lit "SKILL.md not found in skill directory") },
         rmR sfs (joinP installPath (sanitizeName skill.name)), dn + sn) ∧
      ∀ q, underDir (joinP installPath (sanitizeName skill.name)) q = true →
        pathExists ((install installPath skill tree dl nowIso fs).2.1) q = false) ∧
    (serr = none →
      pathExists sfs (joinP (joinP installPath (sanitizeName skill.name))
        (lit "SKILL.md")) = true →
      (install installPath skill tree dl nowIso fs).1.success = true ∧
      dirExists ((install installPath skill tree dl nowIso fs).2.1)
        (joinP installPath (sanitizeName skill.name)) = true) ∧
    (∀ e, serr = some e →
      install installPath skill tree dl nowIso fs =
        ({ success := false, localPath := none, error := some e }, sfs, dn + sn) ∧
      dirExists sfs (joinP installPath (sanitizeName skill.name)) = true) := by
  have hlp : dfs.dirs.contains (joinP installPath (sanitizeName skill.name)) = true := by
    have h0 := contains_mkdirR_self (mkdirR fs installPath)
      (joinP installPath (sanitizeName skill.name))
    have h1 := downloadDirect_dirs dl (joinP installPath (sanitizeName skill.name))
      skill.files
      (mkdirR (mkdirR fs installPath) (joinP installPath (sanitizeName skill.name)))
    rw [hd] at h1
    rw [h1]
    exact h0
  have hsfs : sfs.dirs.contains (joinP installPath (sanitizeName skill.name)) = true := by
    have h2 := downloadSubdirs_dirs_mono tree dl (treeFuel tree)
      (joinP installPath (sanitizeName skill.name))
      (skill.files.filter (fun f => f.type = lit "directory")) dfs
      (joinP installPath (sanitizeName skill.name)) hlp
    rw [hs] at h2
    exact h2
  refine ⟨?_, ?_, ?_⟩
  · intro hse hmiss
    subst hse
    have he : install installPath skill tree dl nowIso fs =
        ({ success := false, localPath := none,
           error := some (lit "SKILL.md not found in skill directory") },
         rmR sfs (joinP installPath (sanitizeName skill.name)), dn + sn) := by
      simp [install, hnot, hd, hs, hmiss]
    refine ⟨he, fun q hq => ?_⟩
    rw [he]
    exact pathExists_rmR _ _ _ hq
  · intro hse hhit
    subst hse
    have he : install installPath skill tree dl nowIso fs =
        ({ success := true,
           localPath := some (joinP installPath (sanitizeName skill.name)),
           error := none },
         writeF sfs (joinP (joinP installPath (sanitizeName skill.name))
           (lit ".skill-manager.json")) (metadataJson skill nowIso), dn + sn) := by
      simp [install, hnot, hd, hs, hhit]
    rw [he]
    exact ⟨rfl, hsfs⟩
  · intro e hse
    subst hse
    have he : install installPath skill tree dl nowIso fs =
        ({ success := false, localPath := none, error := some e }, sfs, dn + sn) := by
      simp [install, hnot, hd, hs]
    exact ⟨he, hsfs⟩

/-- Witness for claim C2: a skill with one direct file `run.sh` (no
`SKILL.md` anywhere), whose install rolls the directory back. -/
theorem install_rollback_witness :
    install (lit "/r") ⟨lit "id", lit "Sk", lit "repo", lit "p",
        [⟨lit "run.sh", lit "p/run.sh", lit "file", []⟩], none⟩
      ⟨[], false⟩ (fun _ => some (lit "X")) (lit "now") (FS.mk [lit "/r"] []) =
      ({ success := false, localPath := none,
         error := some (lit "SKILL.md not found in skill directory") },
       rmR (writeF (mkdirR (mkdirR (FS.mk [lit "/r"] []) (lit "/r"))
              (joinP (lit "/r") (sanitizeName (lit "Sk"))))
            (joinP (joinP (lit "/r") (sanitizeName (lit "Sk"))) (lit "run.sh")) (lit "X"))
         (joinP (lit "/r") (sanitizeName (lit "Sk"))), 1 + 0) ∧
    pathExists ((install (lit "/r") ⟨lit "id", lit "Sk", lit "repo", lit "p",
        [⟨lit "run.sh", lit "p/run.sh", lit "file", []⟩], none⟩
      ⟨[], false⟩ (fun _ => some (lit "X")) (lit "now") (FS.mk [lit "/r"] [])).2.1)
      (joinP (lit "/r") (sanitizeName (lit "Sk"))) = false :=
  let th := install_rollback_iff_manifest_missing (lit "/r")
    ⟨lit "id", lit "Sk", lit "repo", lit "p",
      [⟨lit "run.sh", lit "p/run.sh", lit "file", []⟩], none⟩
    ⟨[], false⟩ (fun _ => some (lit "X")) (lit "now") (FS.mk [lit "/r"] [])
    (writeF (mkdirR (mkdirR (FS.mk [lit "/r"] []) (lit "/r"))
        (joinP (lit "/r") (sanitizeName (lit "Sk"))))
      (joinP (joinP (lit "/r") (sanitizeName (lit "Sk"))) (lit "run.sh")) (lit "X"))
    1 none
    (writeF (mkdirR (mkdirR (FS.mk [lit "/r"] []) (lit "/r"))
        (joinP (lit "/r") (sanitizeName (lit "Sk"))))
      (joinP (joinP (lit "/r") (sanitizeName (lit "Sk"))) (lit "run.sh")) (lit "X"))
    0 (by decide) (by decide) (by decide)
  ⟨(th.1 rfl (by decide)).1,
   (th.1 rfl (by decide)).2 (joinP (lit "/r") (sanitizeName (lit "Sk"))) (by decide)⟩

/-- Claim C3: an unexpired cache entry is served with zero network
requests and completely unchanged state; an expired entry whose stored
validator elicits a 304 response keeps its payload and validator
unchanged while its expiry is extended to now + TTL, with exactly one
request issued. -/
theorem fetchWithCache_cache_behavior {α : Type} (cacheExpiry now : Nat) (key : JStr)
    (resp : GHResponse α) (st : GHState α) (c : CacheEntry α)
    (hc : lookupA st.cache key = some c) :
    (now < c.expiresAt →
      fetchWithCache cacheExpiry now key resp st = (.ok c.data, st, 0)) ∧
    (c.expiresAt ≤ now → resp.status = 304 → c.etag.isSome = true →
      (fetchWithCache cacheExpiry now key resp st).1 = .ok c.data ∧
      (fetchWithCache cacheExpiry now key resp st).2.2 = 1 ∧
      lookupA (fetchWithCache cacheExpiry now key resp st).2.1.cache key =
        some ⟨c.data, now + cacheExpiry, c.etag⟩) := by
  constructor
  · intro hlt
    simp [fetchWithCache, hc, hlt]
  · intro hge h304 _
    have hnot : ¬ now < c.expiresAt := not_lt.mpr hge
    simp only [fetchWithCache, hc]
    rw [if_neg hnot]
    simp [handleResponse, h304, lookupA_setA_self]

/-- Witness for claim C3: a concrete entry served from cache while fresh,
and refreshed in place by a 304 once expired. -/
theorem fetchWithCache_cache_behavior_witness :
    (fetchWithCache 1000 50 (lit "k")
        ({ status := 200, body := 7 } : GHResponse Nat)
        ⟨[(lit "k", ⟨42, 100, some (lit "E")⟩)], none⟩ =
      (.ok 42, ⟨[(lit "k", ⟨42, 100, some (lit "E")⟩)], none⟩, 0)) ∧
    ((fetchWithCache 1000 150 (lit "k")
        ({ status := 304, body := 7 } : GHResponse Nat)
        ⟨[(lit "k", ⟨42, 100, some (lit "E")⟩)], none⟩).1 = .ok 42 ∧
     (fetchWithCache 1000 150 (lit "k")
        ({ status := 304, body := 7 } : GHResponse Nat)
        ⟨[(lit "k", ⟨42, 100, some (lit "E")⟩)], none⟩).2.2 = 1 ∧
     lookupA (fetchWithCache 1000 150 (lit "k")
        ({ status := 304, body := 7 } : GHResponse Nat)
        ⟨[(lit "k", ⟨42, 100, some (lit "E")⟩)], none⟩).2.1.cache (lit "k") =
       some ⟨42, 150 + 1000, some (lit "E")⟩) :=
  ⟨(fetchWithCache_cache_behavior 1000 50 (lit "k")
      ({ status := 200, body := 7 } : GHResponse Nat)
      ⟨[(lit "k", ⟨42, 100, some (lit "E")⟩)], none⟩
      ⟨42, 100, some (lit "E")⟩ (by decide)).1 (by decide),
   (fetchWithCache_cache_behavior 1000 150 (lit "k")
      ({ status := 304, body := 7 } : GHResponse Nat)
      ⟨[(lit "k", ⟨42, 100, some (lit "E")⟩)], none⟩
      ⟨42, 100, some (lit "E")⟩ (by decide)).2 (by decide) rfl rfl⟩

/-- Counterexample to claim C5: a 500 response observed while the
recorded remaining quota is zero is reported as the generic HTTP error,
not as the distinguished quota-exhausted condition. -/
theorem fetchWithCache_non403_zero_quota_counterexample :
    (updateRateLimit (⟨[], none⟩ : GHState Nat)
        { status := 500, statusText := lit "Internal Server Error", body := 0,
                     etag := none, rlLimit := some 60, rlRemaining := some 0,
                     rlReset := some 1700000000 }).rateLimitInfo = some ⟨60, 0, 1700000000⟩ ∧
    respOk ({ status := 500, statusText := lit "Internal Server Error", body := 0,
                     etag := none, rlLimit := some 60, rlRemaining := some 0,
                     rlReset := some 1700000000 } : GHResponse Nat) = false ∧
    (fetchWithCache 1000 0 (lit "k")
        ({ status := 500, statusText := lit "Internal Server Error", body := 0,
                     etag := none, rlLimit := some 60, rlRemaining := some 0,
                     rlReset := some 1700000000 } : GHResponse Nat)
        (⟨[], none⟩ : GHState Nat)).1 =
      .error (.httpError 500 (lit "Internal Server Error")) ∧
    ∀ t, (fetchWithCache 1000 0 (lit "k")
        ({ status := 500, statusText := lit "Internal Server Error", body := 0,
                     etag := none, rlLimit := some 60, rlRemaining := some 0,
                     rlReset := some 1700000000 } : GHResponse Nat)
        (⟨[], none⟩ : GHState Nat)).1 ≠ .error (.rateLimitExceeded t) := by
  refine ⟨by decide, by decide, by rfl, ?_⟩
  intro t h
  have h2 : (fetchWithCache 1000 0 (lit "k")
      ({ status := 500, statusText := lit "Internal Server Error", body := 0,
                     etag := none, rlLimit := some 60, rlRemaining := some 0,
                     rlReset := some 1700000000 } : GHResponse Nat)
      (⟨[], none⟩ : GHState Nat)).1 =
      .error (.httpError 500 (lit "Internal Server Error")) := by rfl
  rw [h2] at h
  simp at h

/-- Claim C5 (amended): when the response that answers an actual network
round trip has status 403 and the rate-limit snapshot recorded from it
shows zero remaining quota, the failure is the distinguished
quota-exhausted condition carrying the reset time. -/
theorem fetchWithCache_quota_exhausted {α : Type} (cacheExpiry now : Nat) (key : JStr)
    (resp : GHResponse α) (st : GHState α) (rl : RateLimitInfo)
    (hmiss : ∀ c, lookupA st.cache key = some c → c.expiresAt ≤ now)
    (h403 : resp.status = 403)
    (hrl : (updateRateLimit st resp).rateLimitInfo = some rl)
    (hzero : rl.remaining = 0) :
    (fetchWithCache cacheExpiry now key resp st).1 =
      .error (.rateLimitExceeded rl.reset) ∧
    (fetchWithCache cacheExpiry now key resp st).2.2 = 1 := by
  have hok : respOk resp = false := by simp [respOk, h403]
  have hz : rateLimitZero (updateRateLimit st resp) = true := by
    simp [rateLimitZero, hrl, hzero]
  have hr : resetOf (updateRateLimit st resp) = rl.reset := by
    simp [resetOf, hrl]
  have hfail : handleNon304 cacheExpiry now key resp (updateRateLimit st resp) =
      (.error (.rateLimitExceeded rl.reset), updateRateLimit st resp) := by
    simp [handleNon304, hok, h403, hz, hr]
  cases hcl : lookupA st.cache key with
  | none => simp [fetchWithCache, hcl, handleResponse, hfail]
  | some c =>
    have hnlt : ¬ now < c.expiresAt := not_lt.mpr (hmiss c hcl)
    simp only [fetchWithCache, hcl]
    rw [if_neg hnlt]
    simp [handleResponse, h403, hfail]

/-- Witness for the amended claim C5: a concrete 403 with zero remaining
quota yields the quota-exhausted error with the reset time. -/
theorem fetchWithCache_quota_exhausted_witness :
    (fetchWithCache 1000 0 (lit "k")
        ({ status := 403, statusText := lit "Forbidden", body := 0,
                     etag := none, rlLimit := some 60, rlRemaining := some 0,
                     rlReset := some 1700000000 } : GHResponse Nat)
        (⟨[], none⟩ : GHState Nat)).1 =
      .error (.rateLimitExceeded 1700000000) ∧
    (fetchWithCache 1000 0 (lit "k")
        ({ status := 403, statusText := lit "Forbidden", body := 0,
                     etag := none, rlLimit := some 60, rlRemaining := some 0,
                     rlReset := some 1700000000 } : GHResponse Nat)
        (⟨[], none⟩ : GHState Nat)).2.2 = 1 :=
  fetchWithCache_quota_exhausted 1000 0 (lit "k")
    ({ status := 403, statusText := lit "Forbidden", body := 0,
                     etag := none, rlLimit := some 60, rlRemaining := some 0,
                     rlReset := some 1700000000 } : GHResponse Nat)
    (⟨[], none⟩ : GHState Nat) ⟨60, 0, 1700000000⟩
    (fun c hc => Option.noConfusion hc) rfl (by decide) rfl

/-- Claim C4: every entry of the direct-child enumeration has a relative
name free of separators, comes from a tree node at exactly that path with
kind `directory` precisely for `tree` nodes, and its full path is the
bundle path plus separator plus its name (the name itself for the root
bundle). -/
theorem getSkillFiles_direct_children (tree : RepositoryTree) (skillPath : JStr)
    (f : SkillFile) (hf : f ∈ getSkillFiles tree skillPath) :
    f.name.contains '/' = false ∧
    (∃ node ∈ tree.tree, node.path = f.path ∧
      f.type = (if node.type = lit "tree" then lit "directory" else lit "file")) ∧
    (skillPath = [] → f.name = f.path) ∧
    (skillPath ≠ [] → f.path = skillPath ++ '/' :: f.name) := by
  simp only [getSkillFiles] at hf
  rw [List.mem_filterMap] at hf
  obtain ⟨node, hmem, hnode⟩ := hf
  by_cases hsp : skillPath = []
  · subst hsp
    simp only [List.isEmpty_nil, eq_self_iff_true, if_true] at hnode
    split at hnode
    next h1 =>
      split at hnode
      next h2 => exact absurd hnode (by simp)
      next h2 =>
        injection hnode with hfe
        subst hfe
        exact ⟨Bool.eq_false_iff.mpr h2, ⟨node, hmem, rfl, rfl⟩,
          fun _ => rfl, fun h => absurd rfl h⟩
    next h1 => exact absurd hnode (by simp)
  · have hne : skillPath.isEmpty = false := by
      cases skillPath with
      | nil => exact absurd rfl hsp
      | cons a as => rfl
    simp only [hne, Bool.false_eq_true, Bool.false_and, Bool.or_false, if_false] at hnode
    split at hnode
    next h1 =>
      split at hnode
      next h2 => exact absurd hnode (by simp)
      next h2 =>
        injection hnode with hfe
        subst hfe
        have hpre : (skillPath ++ ['/']) <+: node.path := by
          simpa [jsStartsWith] using h1
        obtain ⟨t, ht⟩ := hpre
        refine ⟨Bool.eq_false_iff.mpr h2, ⟨node, hmem, rfl, rfl⟩,
          fun h => absurd h hsp, fun _ => ?_⟩
        show node.path = skillPath ++ '/' :: (node.path.drop (skillPath ++ ['/']).length)
        rw [← ht, List.drop_left]
        simp
    next h1 => exact absurd hnode (by simp)

/-- Witness for claim C4: a concrete tree in which the direct child
`run.sh` of bundle `skills/a` satisfies all four properties. -/
theorem getSkillFiles_direct_children_witness :
    (⟨lit "run.sh", lit "skills/a/run.sh", lit "file", []⟩ : SkillFile) ∈
      getSkillFiles
        ⟨[⟨lit "skills/a/SKILL.md", lit "blob", []⟩,
          ⟨lit "skills/a/run.sh", lit "blob", []⟩,
          ⟨lit "skills/a/sub", lit "tree", []⟩,
          ⟨lit "skills/a/sub/deep.txt", lit "blob", []⟩], false⟩ (lit "skills/a") ∧
    (lit "run.sh").contains '/' = false ∧
    (lit "skills/a/run.sh") = (lit "skills/a") ++ '/' :: (lit "run.sh") := by
  refine ⟨by decide, ?_, ?_⟩
  · exact (getSkillFiles_direct_children
      ⟨[⟨lit "skills/a/SKILL.md", lit "blob", []⟩,
        ⟨lit "skills/a/run.sh", lit "blob", []⟩,
        ⟨lit "skills/a/sub", lit "tree", []⟩,
        ⟨lit "skills/a/sub/deep.txt", lit "blob", []⟩], false⟩ (lit "skills/a")
      ⟨lit "run.sh", lit "skills/a/run.sh", lit "file", []⟩ (by decide)).1
  · exact (getSkillFiles_direct_children
      ⟨[⟨lit "skills/a/SKILL.md", lit "blob", []⟩,
        ⟨lit "skills/a/run.sh", lit "blob", []⟩,
        ⟨lit "skills/a/sub", lit "tree", []⟩,
        ⟨lit "skills/a/sub/deep.txt", lit "blob", []⟩], false⟩ (lit "skills/a")
      ⟨lit "run.sh", lit "skills/a/run.sh", lit "file", []⟩ (by decide)).2.2.2 (by decide)

theorem descLoop_append (l : List JStr) :
    ∀ acc : List JStr, ∃ ext, descLoop acc l = acc ++ ext := by
  induction l with
  | nil => exact fun acc => ⟨[], by simp [descLoop]⟩
  | cons line rest ih =>
    intro acc
    simp only [descLoop]
    by_cases h1 : jsStartsWith (jsTrim line) ['#'] = true
    · rw [if_pos h1]
      exact ih acc
    · rw [if_neg h1]
      by_cases h2 : ((jsTrim line).isEmpty || jsStartsWith (jsTrim line) (lit "```")) = true
      · rw [if_pos h2]
        by_cases h3 : acc.length > 0
        · rw [if_pos h3]
          exact ⟨[], by simp⟩
        · rw [if_neg h3]
          exact ih acc
      · rw [if_neg h2]
        by_cases h3 : (acc ++ [jsTrim line]).length ≥ 3
        · rw [if_pos h3]
          exact ⟨[jsTrim line], rfl⟩
        · rw [if_neg h3]
          obtain ⟨ext, hext⟩ := ih (acc ++ [jsTrim line])
          exact ⟨[jsTrim line] ++ ext, by rw [hext, List.append_assoc]⟩

theorem descLoop_length_le (l : List JStr) :
    ∀ acc : List JStr, acc.length < 3 → (descLoop acc l).length ≤ 3 := by
  induction l with
  | nil => exact fun acc h => by simpa [descLoop] using Nat.le_of_lt h
  | cons line rest ih =>
    intro acc h
    simp only [descLoop]
    by_cases h1 : jsStartsWith (jsTrim line) ['#'] = true
    · rw [if_pos h1]
      exact ih acc h
    · rw [if_neg h1]
      by_cases h2 : ((jsTrim line).isEmpty || jsStartsWith (jsTrim line) (lit "```")) = true
      · rw [if_pos h2]
        by_cases h3 : acc.length > 0
        · rw [if_pos h3]
          exact Nat.le_of_lt h
        · rw [if_neg h3]
          exact ih acc h
      · rw [if_neg h2]
        by_cases h3 : (acc ++ [jsTrim line]).length ≥ 3
        · rw [if_pos h3]
          simp only [List.length_append, List.length_singleton]
          omega
        · rw [if_neg h3]
          refine ih _ ?_
          simp only [List.length_append, List.length_singleton] at h3 ⊢
          omega

theorem candidate_of_guards {line : JStr}
    (h1 : ¬ jsStartsWith (jsTrim line) ['#'] = true)
    (h2 : ¬ ((jsTrim line).isEmpty || jsStartsWith (jsTrim line) (lit "```")) = true) :
    descCandidateLine line = true := by
  simp only [Bool.or_eq_true, not_or] at h2
  simp [descCandidateLine, Bool.eq_false_iff.mpr h1, Bool.eq_false_iff.mpr h2.1,
    Bool.eq_false_iff.mpr h2.2]

theorem descLoop_mem (l : List JStr) :
    ∀ (acc : List JStr) (x : JStr), x ∈ descLoop acc l →
      x ∈ acc ∨ ∃ line ∈ l, x = jsTrim line ∧ descCandidateLine line = true := by
  induction l with
  | nil => intro acc x hx; left; simpa [descLoop] using hx
  | cons line rest ih =>
    intro acc x hx
    simp only [descLoop] at hx
    split at hx
    next h1 =>
      rcases ih acc x hx with h | ⟨ln, hln, he⟩
      · exact Or.inl h
      · exact Or.inr ⟨ln, List.mem_cons_of_mem _ hln, he⟩
    next h1 =>
      split at hx
      next h2 =>
        split at hx
        next => exact Or.inl hx
        next =>
          rcases ih acc x hx with h | ⟨ln, hln, he⟩
          · exact Or.inl h
          · exact Or.inr ⟨ln, List.mem_cons_of_mem _ hln, he⟩
      next h2 =>
        have hcand : descCandidateLine line = true := candidate_of_guards h1 h2
        split at hx
        next =>
          rcases List.mem_append.mp hx with h | h
          · exact Or.inl h
          · exact Or.inr ⟨line, List.mem_cons_self _ _, List.mem_singleton.mp h, hcand⟩
        next =>
          rcases ih _ x hx with h | ⟨ln, hln, he⟩
          · rcases List.mem_append.mp h with h' | h'
            · exact Or.inl h'
            · exact Or.inr ⟨line, List.mem_cons_self _ _, List.mem_singleton.mp h', hcand⟩
          · exact Or.inr ⟨ln, List.mem_cons_of_mem _ hln, he⟩

theorem descLoop_nil_iff (l : List JStr) :
    descLoop [] l = [] ↔ ∀ line ∈ l, descCandidateLine line = false := by
  induction l with
  | nil => simp [descLoop]
  | cons line rest ih =>
    simp only [descLoop]
    by_cases h1 : jsStartsWith (jsTrim line) ['#'] = true
    · rw [if_pos h1, ih]
      constructor
      · intro hall ln hln
        rcases List.mem_cons.mp hln with rfl | ht
        · simp [descCandidateLine, h1]
        · exact hall ln ht
      · exact fun hall ln hln => hall ln (List.mem_cons_of_mem _ hln)
    · rw [if_neg h1]
      by_cases h2 : ((jsTrim line).isEmpty || jsStartsWith (jsTrim line) (lit "```")) = true
      · rw [if_pos h2, if_neg (by simp : ¬ (([] : List JStr).length > 0)), ih]
        constructor
        · intro hall ln hln
          rcases List.mem_cons.mp hln with rfl | ht
          · rcases Bool.or_eq_true_iff.mp h2 with hb | hb <;> simp [descCandidateLine, hb]
          · exact hall ln ht
        · exact fun hall ln hln => hall ln (List.mem_cons_of_mem _ hln)
      · rw [if_neg h2]
        have hcand : descCandidateLine line = true := candidate_of_guards h1 h2
        constructor
        · intro habs
          exfalso
          split at habs
          · simp at habs
          · obtain ⟨ext, hext⟩ := descLoop_append rest ([] ++ [jsTrim line])
            rw [hext] at habs
            simp at habs
        · intro hall
          exfalso
          have := hall line (List.mem_cons_self _ _)
          rw [hcand] at this
          exact absurd this (by simp)

theorem joinSp_eq_nil_iff (l : List JStr) (hall : ∀ x ∈ l, x ≠ []) :
    joinSp l = [] ↔ l = [] := by
  cases l with
  | nil => simp [joinSp]
  | cons x rest =>
    cases rest with
    | nil =>
      simp only [joinSp]
      constructor
      · intro h; exact absurd h (hall x (by simp))
      · intro h; simp at h
    | cons y rest' =>
      simp only [joinSp]
      constructor
      · intro h; simp at h
      · intro h; simp at h

/-- Counterexample to claim C6: the body consisting of the single line
made of three backticks is non-blank and is not a heading, yet the
parsed description is empty. -/
theorem parseSkillMd_fence_only_counterexample :
    (∃ line ∈ (jsTrim (lit "```")).splitOn '\n',
       jsTrim line ≠ [] ∧ jsStartsWith (jsTrim line) ['#'] = false) ∧
    parseSkillMd (lit "```") =
      { name := .s (lit "Unknown Skill"), description := .s [] } := by
  constructor
  · exact ⟨lit "```", by decide, by decide, by decide⟩
  · decide

/-- Claim C6 (amended): for a manifest without a header block, parsing
yields the placeholder name and the body-derived description, which is
at most 300 characters, is non-empty exactly when the body has at least
one non-blank line that is neither a heading nor a code-fence delimiter,
and is built from at most three collected lines, each the trim of such a
body line. -/
theorem parseSkillMd_no_frontmatter_spec (content : JStr)
    (h : extractFrontmatter content = none) :
    parseSkillMd content =
      { name := .s (lit "Unknown Skill"),
        description := .s (extractDescription content) } ∧
    (extractDescription content).length ≤ 300 ∧
    (extractDescription content ≠ [] ↔
      ∃ line ∈ (jsTrim content).splitOn '\n', descCandidateLine line = true) ∧
    (descLoop [] ((jsTrim content).splitOn '\n')).length ≤ 3 ∧
    ∀ x ∈ descLoop [] ((jsTrim content).splitOn '\n'),
      ∃ line ∈ (jsTrim content).splitOn '\n',
        x = jsTrim line ∧ descCandidateLine line = true := by
  have hnonnil : ∀ x ∈ descLoop [] ((jsTrim content).splitOn '\n'), x ≠ [] := by
    intro x hx
    rcases descLoop_mem _ [] x hx with hin | ⟨ln, hln, hxe, hcand⟩
    · simp at hin
    · subst hxe
      intro hxe2
      simp [descCandidateLine, hxe2] at hcand
  refine ⟨by simp [parseSkillMd, h], ?_, ?_, descLoop_length_le _ _ (by simp), ?_⟩
  · show ((joinSp (descLoop [] ((jsTrim content).splitOn '\n'))).take 300).length ≤ 300
    rw [List.length_take]
    exact Nat.min_le_left _ _
  · constructor
    · intro hne
      by_contra hno
      push_neg at hno
      have hnil : descLoop [] ((jsTrim content).splitOn '\n') = [] :=
        (descLoop_nil_iff _).mpr
          (fun ln hln => Bool.eq_false_iff.mpr (fun hh => by
            have := hno ln hln
            rw [hh] at this
            exact this rfl))
      apply hne
      show (joinSp (descLoop [] ((jsTrim content).splitOn '\n'))).take 300 = []
      rw [hnil]
      rfl
    · rintro ⟨ln, hln, hcand⟩
      have hdne : descLoop [] ((jsTrim content).splitOn '\n') ≠ [] := by
        intro hnil
        have := (descLoop_nil_iff _).mp hnil ln hln
        rw [hcand] at this
        exact absurd this (by simp)
      intro hdesc
      have hdesc' : (joinSp (descLoop [] ((jsTrim content).splitOn '\n'))).take 300 = [] :=
        hdesc
      rw [List.take_eq_nil_iff] at hdesc'
      rcases hdesc' with h300 | hjoin
      · exact absurd h300 (by decide)
      · exact hdne ((joinSp_eq_nil_iff _ hnonnil).mp hjoin)
  · intro x hx
    rcases descLoop_mem _ [] x hx with h0 | hgood
    · simp at h0
    · exact hgood

/-- Witness for the amended claim C6 at the spec's own no-header
scenario. -/
theorem parseSkillMd_no_frontmatter_spec_witness :
    parseSkillMd (lit "# Title\n\nFirst line of text.\nSecond line.") =
      { name := .s (lit "Unknown Skill"),
        description :=
          .s (extractDescription (lit "# Title\n\nFirst line of text.\nSecond line.")) } :=
  (parseSkillMd_no_frontmatter_spec
    (lit "# Title\n\nFirst line of text.\nSecond line.") (by decide)).1

/-- Counterexample to claim C7: the name `a_b` contains an underscore —
a character outside letters, digits, space, and hyphen — yet validation
reports no warning at all (and no error, and validity). -/
theorem validateSkill_underscore_counterexample :
    (validateSkill { name := .s (lit "a_b"), description := .s (lit "desc") }).warnings = [] ∧
    (validateSkill { name := .s (lit "a_b"), description := .s (lit "desc") }).errors = [] ∧
    (validateSkill { name := .s (lit "a_b"), description := .s (lit "desc") }).isValid = true ∧
    '_' ∈ lit "a_b" ∧
    ¬ ('_'.isAlphanum = true ∨ '_' = ' ' ∨ '_' = '-') :=
  ⟨by decide, by decide, by decide, by decide, by decide⟩

/-- Claim C7 (amended): validation is valid exactly when the error list
is empty, which happens exactly when the name is truthy and not the
placeholder; a missing description is exactly a warning; and the format
warning appears exactly when the present name fails the source's
character class — letters, digits, underscore, whitespace, or hyphen
(the class of the regex used by the code, which also admits underscore
and non-space whitespace). -/
theorem validateSkill_spec (m : SkillMetadata) :
    ((validateSkill m).isValid = true ↔ (validateSkill m).errors = []) ∧
    ((validateSkill m).errors ≠ [] ↔
      (truthyV m.name = false ∨ m.name = .s (lit "Unknown Skill"))) ∧
    (truthyV m.description = false ↔
      lit "Skill description is recommended" ∈ (validateSkill m).warnings) ∧
    ((truthyV m.name = true ∧ nameFormatOk (coerceStr m.name) = false) ↔
      lit "Skill name should only contain letters, numbers, spaces, and hyphens" ∈
        (validateSkill m).warnings) ∧
    ((validateSkill m).isValid = true ↔
      (truthyV m.name = true ∧ ¬ m.name = .s (lit "Unknown Skill"))) := by
  have hmsg : lit "Skill description is recommended" ≠
      lit "Skill name should only contain letters, numbers, spaces, and hyphens" := by
    decide
  by_cases hn : truthyV m.name = true <;>
    by_cases hp : m.name = .s (lit "Unknown Skill") <;>
      by_cases hd : truthyV m.description = true <;>
        by_cases hf : nameFormatOk (coerceStr m.name) = true <;>
          simp_all [validateSkill, hmsg, Ne.symm hmsg]

theorem firstMatch_none_iff (table : List (JStr × List JStr)) (text : JStr) :
    firstMatch table text = none ↔
      ∀ cp ∈ table, ∀ p ∈ cp.2, jsIncludes text p = false := by
  induction table with
  | nil => simp [firstMatch]
  | cons cp rest ih =>
    obtain ⟨cat, pats⟩ := cp
    by_cases h : pats.any (fun p => jsIncludes text p) = true
    · have hfm : firstMatch ((cat, pats) :: rest) text = some cat := by
        simp [firstMatch, h]
      rw [hfm]
      constructor
      · intro habs
        exact absurd habs (by simp)
      · intro hall
        obtain ⟨p, hp, hinc⟩ := List.any_eq_true.mp h
        have hfalse := hall (cat, pats) (List.mem_cons_self _ _) p hp
        rw [hfalse] at hinc
        exact absurd hinc (by simp)
    · have hexf : ∀ p ∈ pats, jsIncludes text p = false := by
        intro p hp
        exact Bool.eq_false_iff.mpr (List.any_eq_false.mp (Bool.eq_false_iff.mpr h) p hp)
      have hfm : firstMatch ((cat, pats) :: rest) text = firstMatch rest text := by
        simp [firstMatch, h]
      rw [hfm, ih]
      constructor
      · intro hall cp' hcp' p hp
        rcases List.mem_cons.mp hcp' with rfl | ht
        · exact hexf p hp
        · exact hall cp' ht p hp
      · intro hall cp' hcp' p hp
        exact hall cp' (List.mem_cons_of_mem _ hcp') p hp

theorem firstMatch_some_iff (table : List (JStr × List JStr)) (text : JStr) (cat : JStr) :
    firstMatch table text = some cat ↔
      ∃ pre pats post, table = pre ++ (cat, pats) :: post ∧
        (∃ p ∈ pats, jsIncludes text p = true) ∧
        ∀ cp ∈ pre, ∀ p ∈ cp.2, jsIncludes text p = false := by
  induction table with
  | nil =>
    simp only [firstMatch]
    constructor
    · intro h
      exact absurd h (by simp)
    · rintro ⟨pre, pats, post, htab, -, -⟩
      cases pre <;> simp at htab
  | cons hd rest ih =>
    obtain ⟨c0, ps0⟩ := hd
    by_cases h : ps0.any (fun p => jsIncludes text p) = true
    · have hfm : firstMatch ((c0, ps0) :: rest) text = some c0 := by
        simp [firstMatch, h]
      rw [hfm]
      constructor
      · intro heq
        injection heq with he
        subst he
        obtain ⟨p, hp, hinc⟩ := List.any_eq_true.mp h
        exact ⟨[], ps0, rest, by simp, ⟨p, hp, hinc⟩, by simp⟩
      · rintro ⟨pre, pats, post, htab, ⟨p, hp, hinc⟩, hpre⟩
        cases pre with
        | nil =>
          simp only [List.nil_append] at htab
          injection htab with h1 h2
          injection h1 with he1 he2
          rw [he1]
        | cons q pre' =>
          simp only [List.cons_append] at htab
          injection htab with h1 h2
          have hq := hpre q (List.mem_cons_self _ _)
          rw [← h1] at hq
          obtain ⟨p0, hp0, hinc0⟩ := List.any_eq_true.mp h
          have hz := hq p0 hp0
          rw [hz] at hinc0
          exact absurd hinc0 (by simp)
    · have hexf : ∀ p ∈ ps0, jsIncludes text p = false := by
        intro p hp
        exact Bool.eq_false_iff.mpr (List.any_eq_false.mp (Bool.eq_false_iff.mpr h) p hp)
      have hfm : firstMatch ((c0, ps0) :: rest) text = firstMatch rest text := by
        simp [firstMatch, h]
      rw [hfm, ih]
      constructor
      · rintro ⟨pre, pats, post, htab, hex, hpre⟩
        refine ⟨(c0, ps0) :: pre, pats, post, by simp [htab], hex, ?_⟩
        intro cp hcp p hp
        rcases List.mem_cons.mp hcp with rfl | ht
        · exact hexf p hp
        · exact hpre cp ht p hp
      · rintro ⟨pre, pats, post, htab, hex, hpre⟩
        cases pre with
        | nil =>
          simp only [List.nil_append] at htab
          injection htab with h1 h2
          injection h1 with he1 he2
          obtain ⟨p, hp, hinc⟩ := hex
          rw [← he2] at hp
          have hz := hexf p hp
          rw [hz] at hinc
          exact absurd hinc (by simp)
        | cons q pre' =>
          simp only [List.cons_append] at htab
          injection htab with h1 h2
          exact ⟨pre', pats, post, h2, hex,
            fun cp hcp p hp => hpre cp (List.mem_cons_of_mem _ hcp) p hp⟩

/-- Claim C8: category inference lower-cases the space-joined
concatenation of name and path; the result is the first category of the
ordered table one of whose keywords occurs in that text, and it is
`none` — not a default — exactly when no keyword of any category
occurs. -/
theorem inferCategory_first_match (skillName pathStr : JStr) :
    (inferCategory skillName pathStr = none ↔
      ∀ cp ∈ categoryPatterns, ∀ p ∈ cp.2,
        jsIncludes (jsToLower (skillName ++ ' ' :: pathStr)) p = false) ∧
    ∀ cat, inferCategory skillName pathStr = some cat ↔
      ∃ pre pats post, categoryPatterns = pre ++ (cat, pats) :: post ∧
        (∃ p ∈ pats, jsIncludes (jsToLower (skillName ++ ' ' :: pathStr)) p = true) ∧
        ∀ cp ∈ pre, ∀ p ∈ cp.2,
          jsIncludes (jsToLower (skillName ++ ' ' :: pathStr)) p = false :=
  ⟨firstMatch_none_iff categoryPatterns _,
   fun cat => firstMatch_some_iff categoryPatterns _ cat⟩

/-- Claim C10: the parsed name is never the empty string — it is the
header's declared name value when that value is truthy, and exactly the
placeholder `Unknown Skill` when the header block is absent, has no name
key, or its name value is falsy. -/
theorem parseSkillMd_name_nonempty (content : JStr) :
    (parseSkillMd content).name ≠ .s [] ∧
    (extractFrontmatter content = none →
      (parseSkillMd content).name = .s (lit "Unknown Skill")) ∧
    ∀ fm body, extractFrontmatter content = some (fm, body) →
      (∀ v, lookupA (parseSimpleYaml fm) (lit "name") = some v →
        (truthyV v = true → (parseSkillMd content).name = v) ∧
        (truthyV v = false → (parseSkillMd content).name = .s (lit "Unknown Skill"))) ∧
      (lookupA (parseSimpleYaml fm) (lit "name") = none →
        (parseSkillMd content).name = .s (lit "Unknown Skill")) := by
  have hph : (YamlVal.s (lit "Unknown Skill")) ≠ .s [] := by decide
  cases hfm : extractFrontmatter content with
  | none =>
    have hn : (parseSkillMd content).name = .s (lit "Unknown Skill") := by
      simp [parseSkillMd, hfm]
    refine ⟨by rw [hn]; exact hph, fun _ => hn, ?_⟩
    intro fm body hsome
    exact absurd hsome (by simp)
  | some pr =>
    obtain ⟨fm, body⟩ := pr
    have hname : (parseSkillMd content).name =
        (match lookupA (parseSimpleYaml fm) (lit "name") with
         | some v => if truthyV v then v else .s (lit "Unknown Skill")
         | none => .s (lit "Unknown Skill")) := by
      simp [parseSkillMd, hfm]
    refine ⟨?_, ?_, ?_⟩
    · rw [hname]
      cases hlk : lookupA (parseSimpleYaml fm) (lit "name") with
      | none => exact hph
      | some v =>
        show (if truthyV v = true then v else YamlVal.s (lit "Unknown Skill")) ≠ .s []
        by_cases hv : truthyV v = true
        · rw [if_pos hv]
          intro habs
          rw [habs] at hv
          simp [truthyV] at hv
        · rw [if_neg hv]
          exact hph
    · intro habs
      exact absurd habs (by simp)
    · intro fm' body' hsome
      injection hsome with hpr
      injection hpr with hfme hbodye
      subst hfme
      subst hbodye
      constructor
      · intro v hv
        constructor
        · intro htr
          rw [hname, hv]
          show (if truthyV v = true then v else YamlVal.s (lit "Unknown Skill")) = v
          rw [if_pos htr]
        · intro hfalse
          rw [hname, hv]
          show (if truthyV v = true then v else YamlVal.s (lit "Unknown Skill")) =
            .s (lit "Unknown Skill")
          rw [if_neg (by simp [hfalse])]
      · intro hnone
        rw [hname, hnone]
